import Mathlib

/-!
Shallow embedding of the customer-comment cleaning pipeline
(`src/cleaning_functions.py`) and proofs of the specification claims.

Python strings are modelled as Lean `String` (a structure over `List Char`);
every stage function operates on the underlying character list. External
static data consumed by the pipeline (the NLTK English stopword corpus, the
contraction mapping of the `contractions` package, the emoji classification
table, HTML character entities, and the NLTK word tokenizer's behaviour on
the pipeline's lowercase alphabet) is embedded as explicit Lean data,
faithful to the published content of those libraries.
-/

namespace CleaningPipeline

/-- Characters treated as whitespace by Python's `str.split`, `str.strip`
and the regex class `\s` on `str` patterns (Unicode whitespace), by code
point. -/
def pyIsSpace (c : Char) : Bool :=
  let n := c.toNat
  (9 ≤ n && n ≤ 13) || (28 ≤ n && n ≤ 32) || n = 0x85 || n = 0xA0 ||
    n = 0x1680 || (0x2000 ≤ n && n ≤ 0x200A) || n = 0x2028 || n = 0x2029 ||
    n = 0x202F || n = 0x205F || n = 0x3000

/-- ASCII letters, the class `[a-zA-Z]` (code points 97-122 and 65-90). -/
def isAsciiLetter (c : Char) : Bool :=
  let n := c.toNat
  (97 ≤ n && n ≤ 122) || (65 ≤ n && n ≤ 90)

/-- Lowercase ASCII letters `[a-z]` (code points 97-122). -/
def isLowerAz (c : Char) : Bool :=
  let n := c.toNat
  97 ≤ n && n ≤ 122

/-- The negation whitelist `negation_words` from the source
(a Python set literal; entries copied verbatim). -/
def negation_words : List String :=
  ["not", "no", "never", "none",
   "did", "did not",
   "was", "was not",
   "were", "were not",
   "cannot",
   "cant", "can't",
   "should not", "shouldn't",
   "could not", "couldn't",
   "would not", "wouldn't"]

/-- Models the NLTK English stopword corpus, `stopwords.words("english")`:
external static data loaded by the source at module import (179 entries of
the published corpus). -/
def nltk_english_stopwords : List String :=
  ["i", "me", "my", "myself", "we", "our", "ours", "ourselves",
   "you", "you're", "you've", "you'll", "you'd", "your", "yours",
   "yourself", "yourselves", "he", "him", "his", "himself", "she",
   "she's", "her", "hers", "herself", "it", "it's", "its", "itself",
   "they", "them", "their", "theirs", "themselves", "what", "which",
   "who", "whom", "this", "that", "that'll", "these", "those", "am",
   "is", "are", "was", "were", "be", "been", "being", "have", "has",
   "had", "having", "do", "does", "did", "doing", "a", "an", "the",
   "and", "but", "if", "or", "because", "as", "until", "while", "of",
   "at", "by", "for", "with", "about", "against", "between", "into",
   "through", "during", "before", "after", "above", "below", "to",
   "from", "up", "down", "in", "out", "on", "off", "over", "under",
   "again", "further", "then", "once", "here", "there", "when",
   "where", "why", "how", "all", "any", "both", "each", "few", "more",
   "most", "other", "some", "such", "no", "nor", "not", "only", "own",
   "same", "so", "than", "too", "very", "s", "t", "can", "will",
   "just", "don", "don't", "should", "should've", "now", "d", "ll",
   "m", "o", "re", "ve", "y", "ain", "aren", "aren't", "couldn",
   "couldn't", "didn", "didn't", "doesn", "doesn't", "hadn", "hadn't",
   "hasn", "hasn't", "haven", "haven't", "isn", "isn't", "ma",
   "mightn", "mightn't", "mustn", "mustn't", "needn", "needn't",
   "shan", "shan't", "shouldn", "shouldn't", "wasn", "wasn't",
   "weren", "weren't", "won", "won't", "wouldn", "wouldn't"]

/-- The stopword set from the source: `stop_words = set(...) - negation_words`
(the negation whitelist is subtracted once at module load). -/
def stop_words : List String :=
  nltk_english_stopwords.filter (fun w => !(negation_words.contains w))

/-- Models the fixed contraction-to-expansion mapping of the `contractions`
package used by `contractions.fix` (representative published entries,
including the capitalized variants the package registers and its
apostrophe-free slang entries). -/
def contraction_pairs : List (String × String) :=
  [("didn't", "did not"), ("Didn't", "Did not"),
   ("don't", "do not"), ("Don't", "Do not"),
   ("doesn't", "does not"), ("isn't", "is not"),
   ("wasn't", "was not"), ("weren't", "were not"),
   ("Weren't", "Were not"), ("can't", "can not"),
   ("Can't", "Can not"), ("couldn't", "could not"),
   ("shouldn't", "should not"), ("wouldn't", "would not"),
   ("won't", "will not"), ("i'm", "i am"), ("I'm", "I am"),
   ("it's", "it is"), ("It's", "It is"),
   ("you're", "you are"), ("You're", "You are"),
   ("gonna", "going to"), ("gotta", "got to"),
   ("wanna", "want to"), ("gimme", "give me"),
   ("lemme", "let me"), ("cause", "because"),
   ("ima", "i am going to"), ("imma", "i am about to")]

/-- Word characters for the contraction matcher: letters and apostrophe. -/
def isWordChar (c : Char) : Bool :=
  isAsciiLetter c || c = '\''

/-- Replacement for a single word under the contraction mapping; words
absent from the mapping pass through unchanged. -/
def lookupContraction (w : String) : String :=
  (List.lookup w contraction_pairs).getD w

/-- Replacement for the word accumulated by the contraction scanner
(`acc` holds the word's characters in reverse). -/
def flushWord (acc : List Char) : List Char :=
  if acc.isEmpty then [] else (lookupContraction (String.mk acc.reverse)).data

/-- Scanning core of `contractions.fix`: maximal word runs are replaced
through the mapping, all other characters pass through verbatim. The
accumulator holds the current word run in reverse. -/
def contractionsFixAux : List Char → List Char → List Char
  | [], acc => flushWord acc
  | c :: cs, acc =>
    if isWordChar c then contractionsFixAux cs (c :: acc)
    else flushWord acc ++ c :: contractionsFixAux cs []

/-- Scanning core of `contractions.fix` on a character list. -/
def contractionsFixL (l : List Char) : List Char :=
  contractionsFixAux l []

/-- Python `str.replace("can not", "cannot")`: leftmost, non-overlapping
substring replacement of the seven-character pattern. -/
def replaceCanNotL : List Char → List Char
  | 'c' :: 'a' :: 'n' :: ' ' :: 'n' :: 'o' :: 't' :: rest =>
      'c' :: 'a' :: 'n' :: 'n' :: 'o' :: 't' :: replaceCanNotL rest
  | c :: cs => c :: replaceCanNotL cs
  | [] => []

/-- The source's `expand_contractions_text`: `contractions.fix` followed by
the literal replacement of `"can not"` with `"cannot"`. -/
def expand_contractions_text (s : String) : String :=
  ⟨replaceCanNotL (contractionsFixL s.data)⟩

/-- The HTML character entities decoded by the model of `html.unescape`
(the common named and numeric forms). -/
def htmlEntities : List (String × Char) :=
  [("amp;", '&'), ("lt;", '<'), ("gt;", '>'), ("quot;", '"'),
   ("#39;", '\''), ("apos;", '\''), ("nbsp;", '\xA0')]

/-- The character decoded by a complete entity name (without the leading
ampersand), if any. -/
def entityFor (buf : List Char) : Option Char :=
  (htmlEntities.find? (fun e => e.1.data = buf)).map (fun e => e.2)

/-- Whether `buf` is a proper prefix of some entity name, so that the scan
should keep reading. -/
def entityCouldExtend (buf : List Char) : Bool :=
  htmlEntities.any (fun e => buf.isPrefixOf e.1.data && buf.length < e.1.data.length)

/-- Scanning core of `html.unescape`, modelling the entities the library
decodes; an ampersand that begins no recognized entity passes through, as
in the library. The second argument is `none` outside an entity candidate
and `some buf` after an `&`, holding the entity-name characters read so
far. -/
def unescapeAux : List Char → Option (List Char) → List Char
  | [], none => []
  | [], some buf => '&' :: buf
  | c :: cs, none =>
    if c = '&' then unescapeAux cs (some [])
    else c :: unescapeAux cs none
  | c :: cs, some buf =>
    match entityFor (buf ++ [c]) with
    | some r => r :: unescapeAux cs none
    | none =>
      if entityCouldExtend (buf ++ [c]) then unescapeAux cs (some (buf ++ [c]))
      else if c = '&' then ('&' :: buf) ++ unescapeAux cs (some [])
      else ('&' :: buf) ++ c :: unescapeAux cs none

/-- Entity decoding on a character list. -/
def unescapeL (l : List Char) : List Char :=
  unescapeAux l none

/-- Scanning core of `re.sub(r"<.*?>", " ", text)`. The second argument is
`none` outside a candidate tag and `some acc` after an unclosed `<`, with
`acc` the characters seen since it (reversed). Each leftmost non-greedy
match `<...>` becomes one space; because the regex dot does not match
newline, a `<` whose nearest `>` lies beyond a newline (or is absent)
matches nothing and is emitted verbatim together with the scanned span.
No `<` inside such a flushed span can start a match either, since the same
newline or end of input blocks it, so the scan need not revisit the span. -/
def stripTagsAux : List Char → Option (List Char) → List Char
  | [], none => []
  | [], some acc => '<' :: acc.reverse
  | c :: cs, none =>
    if c = '<' then stripTagsAux cs (some [])
    else c :: stripTagsAux cs none
  | c :: cs, some acc =>
    if c = '>' then ' ' :: stripTagsAux cs none
    else if c = '\n' then ('<' :: acc.reverse) ++ '\n' :: stripTagsAux cs none
    else stripTagsAux cs (some (c :: acc))

/-- Tag stripping on a character list. -/
def stripTagsL (l : List Char) : List Char :=
  stripTagsAux l none

/-- The source's `remove_html_tags`: decode entities, then strip tags. -/
def remove_html_tags (s : String) : String :=
  ⟨stripTagsL (unescapeL s.data)⟩

/-- Models the emoji classification table of the `emoji` package
(code-point ranges of the Unicode emoji blocks). -/
def isEmojiChar (c : Char) : Bool :=
  let n := c.toNat
  (0x1F1E6 ≤ n && n ≤ 0x1F1FF) || (0x1F300 ≤ n && n ≤ 0x1F5FF) ||
    (0x1F600 ≤ n && n ≤ 0x1F64F) || (0x1F680 ≤ n && n ≤ 0x1F6FF) ||
    (0x1F900 ≤ n && n ≤ 0x1F9FF) || (0x1FA70 ≤ n && n ≤ 0x1FAFF) ||
    (0x2600 ≤ n && n ≤ 0x27BF) || (0x2B00 ≤ n && n ≤ 0x2BFF) ||
    n = 0xFE0F || n = 0x200D

/-- The source's `remove_emojis`: `emoji.replace_emoji(text, replace=" ")`,
each emoji code point replaced by a single space. -/
def remove_emojis (s : String) : String :=
  ⟨s.data.map (fun c => if isEmojiChar c then ' ' else c)⟩

/-- Scanning core of `re.sub(r"(.)\1{2,}", r"\1\1", text)`: a run of three
or more identical characters collapses to exactly two (whenever the next
three characters are equal, the first is dropped, so each run keeps only
its last two characters); the regex dot does not match newline, so newline
runs are untouched. -/
def collapseRunsL : List Char → List Char
  | a :: b :: c :: rest =>
    if a = b ∧ b = c ∧ a ≠ '\n' then collapseRunsL (b :: c :: rest)
    else a :: collapseRunsL (b :: c :: rest)
  | l => l

/-- The source's `normalize_repeated_characters`. -/
def normalize_repeated_characters (s : String) : String :=
  ⟨collapseRunsL s.data⟩

/-- Python `str.lower` restricted to ASCII case mapping. The full function
additionally lowers non-ASCII cased letters; those characters are replaced
by a space by the subsequent `remove_symbols` stage in either form, so the
pipeline is insensitive to the difference. -/
def pyToLower (c : Char) : Char :=
  if 65 ≤ c.toNat && c.toNat ≤ 90 then Char.ofNat (c.toNat + 32) else c

/-- The source's `lowercase_text`. -/
def lowercase_text (s : String) : String :=
  ⟨s.data.map pyToLower⟩

/-- Character map of `re.sub(r"[^a-zA-Z\s]", " ", text)`: every character
outside `[a-zA-Z]` or whitespace becomes a space. -/
def symbolMap (c : Char) : Char :=
  if isAsciiLetter c || pyIsSpace c then c else ' '

/-- The source's `remove_symbols`. -/
def remove_symbols (s : String) : String :=
  ⟨s.data.map symbolMap⟩

/-- Scanning core of Python `str.split()` with no argument; the
accumulator holds the current token's characters in reverse. Maximal runs
of non-whitespace characters become tokens, empty tokens never arise. -/
def pySplitAux : List Char → List Char → List (List Char)
  | [], acc => if acc.isEmpty then [] else [acc.reverse]
  | c :: cs, acc =>
    if pyIsSpace c then
      if acc.isEmpty then pySplitAux cs [] else acc.reverse :: pySplitAux cs []
    else pySplitAux cs (c :: acc)

/-- Python `str.split()` on a character list. -/
def pySplitL (l : List Char) : List (List Char) :=
  pySplitAux l []

/-- Tokens of a string under Python `str.split()`. -/
def pySplitStr (s : String) : List String :=
  (pySplitL s.data).map String.mk

/-- Models the apostrophe-free contraction splits of the NLTK word
tokenizer (the MacIntyre rules, e.g. `cannot` to `can` + `not`), the only
rules that can fire on the pipeline's lowercase symbol-free alphabet. -/
def treebankSplitParts : List (String × List String) :=
  [("cannot", ["can", "not"]), ("gimme", ["gim", "me"]),
   ("gonna", ["gon", "na"]), ("gotta", ["got", "ta"]),
   ("lemme", ["lem", "me"]), ("wanna", ["wan", "na"])]

/-- Split of a single whitespace-delimited word by the NLTK tokenizer. -/
def treebankSplit (w : String) : List String :=
  (List.lookup w treebankSplitParts).getD [w]

/-- Models NLTK `word_tokenize` on the text the pipeline feeds it
(lowercase ASCII letters and whitespace after `remove_symbols`): sentence
splitting is the identity there, and tokenization is whitespace splitting
followed by the MacIntyre contraction splits. -/
def word_tokenize (s : String) : List String :=
  (pySplitStr s).flatMap treebankSplit

/-- The filter predicate of `remove_stopwords`: keep a token if it is a
negation word, or if it is not a stopword. -/
def keepToken (w : String) : Bool :=
  negation_words.contains w || !(stop_words.contains w)

/-- Join a list of character-list tokens with single spaces. -/
def joinSp (ts : List (List Char)) : List Char :=
  (ts.intersperse [' ']).flatten

/-- The source's `remove_stopwords`: tokenize, keep negation words
unconditionally, drop stopwords, join survivors with single spaces. -/
def remove_stopwords (s : String) : String :=
  ⟨joinSp (((word_tokenize s).filter keepToken).map String.data)⟩

/-- The source's `count_words`: `len(text.split())`. -/
def count_words (s : String) : Nat :=
  (pySplitStr s).length

/-- The source's final `" ".join(cleaned.split())`: squeeze consecutive
whitespace to single spaces, trimming the ends. -/
def squeezeSpaces (s : String) : String :=
  ⟨joinSp (pySplitL s.data)⟩

/-- The source's `clean_comment` controller, stage for stage. -/
def clean_comment (s : String) : String × Nat × Nat :=
  let words_before := count_words s
  let cleaned1 := expand_contractions_text s
  let cleaned2 := remove_html_tags cleaned1
  let cleaned3 := remove_emojis cleaned2
  let cleaned4 := normalize_repeated_characters cleaned3
  let cleaned5 := lowercase_text cleaned4
  let cleaned6 := remove_symbols cleaned5
  let cleaned7 := remove_stopwords cleaned6
  let cleaned8 := squeezeSpaces cleaned7
  let words_after := count_words cleaned8
  (cleaned8, words_before, words_after)

/-- Python `str.strip()`: remove leading and trailing whitespace. -/
def pyStrip (s : String) : String :=
  ⟨((s.data.dropWhile pyIsSpace).reverse.dropWhile pyIsSpace).reverse⟩

/-- The source's `flag_cleaning_success`: `"Success" if cleaned_text.strip()
else "Failed"` (Python truthiness of the stripped string). -/
def flag_cleaning_success (original_text cleaned_text : String) : String :=
  if pyStrip cleaned_text ≠ "" then "Success" else "Failed"

/-- The single-word entries of the negation lexicon: the entries that
contain neither a space nor an apostrophe. -/
def single_negation_words : List String :=
  ["not", "no", "never", "none", "did", "was", "were", "cannot", "cant"]

/-- The stopword filter parameterized by the negation whitelist: the
whitelist is both subtracted from the stopword corpus and consulted by the
keep test, exactly as the module-level `stop_words`/`negation_words` pair
is used by `remove_stopwords`. -/
def remove_stopwords_with (neg : List String) (s : String) : String :=
  ⟨joinSp (((word_tokenize s).filter (fun w =>
      neg.contains w ||
        !((nltk_english_stopwords.filter (fun v => !(neg.contains v))).contains w))).map
    String.data)⟩

/-- Maximal runs of identical consecutive characters, as (character,
length) pairs. -/
def runsOf : List Char → List (Char × Nat)
  | [] => []
  | [c] => [(c, 1)]
  | c :: d :: rest =>
    match runsOf (d :: rest) with
    | (e, n) :: rs => if c = d then (c, n + 1) :: rs else (c, 1) :: (e, n) :: rs
    | [] => [(c, 1)]

/-- Reference formulation of the repeated-character rule in the spec's
words, adjusted for the newline exception the regex imposes: every run of
three or more identical characters other than newline is replaced by
exactly two occurrences, and every other run is left unchanged. -/
def collapseRunsSpec (l : List Char) : List Char :=
  ((runsOf l).map (fun p =>
    if p.1 ≠ '\n' ∧ 3 ≤ p.2 then List.replicate 2 p.1
    else List.replicate p.2 p.1)).flatten

/-! ## Helper lemmas: characters -/

theorem map_id_of {α : Type} (f : α → α) :
    ∀ l : List α, (∀ a ∈ l, f a = a) → l.map f = l := by
  intro l h
  induction l with
  | nil => rfl
  | cons a l ih =>
    rw [List.map_cons, h a (by simp), ih fun b hb => h b (by simp [hb])]

theorem pyToLower_toNat (c : Char) :
    (pyToLower c).toNat = if 65 ≤ c.toNat ∧ c.toNat ≤ 90 then c.toNat + 32 else c.toNat := by
  unfold pyToLower
  split
  case isTrue h =>
    simp only [Bool.and_eq_true, decide_eq_true_eq] at h
    have hv : (c.toNat + 32).isValidChar := Or.inl (by omega)
    rw [if_pos h]
    unfold Char.ofNat
    rw [dif_pos hv]
    rfl
  case isFalse h =>
    simp only [Bool.and_eq_true, decide_eq_true_eq] at h
    rw [if_neg h]

theorem isLowerAz_toNat (c : Char) :
    isLowerAz c = true ↔ 97 ≤ c.toNat ∧ c.toNat ≤ 122 := by
  simp [isLowerAz]

theorem isLowerAz_not_space {c : Char} (h : isLowerAz c = true) :
    pyIsSpace c = false := by
  rw [isLowerAz_toNat] at h
  simp only [pyIsSpace, Bool.or_eq_false_iff, Bool.and_eq_false_iff,
    decide_eq_false_iff_not, not_le]
  omega

theorem symbolMap_pyToLower (x : Char) :
    isLowerAz (symbolMap (pyToLower x)) = true ∨
      pyIsSpace (symbolMap (pyToLower x)) = true := by
  have hl := pyToLower_toNat x
  unfold symbolMap
  split
  case isTrue h =>
    simp only [Bool.or_eq_true, isAsciiLetter, Bool.and_eq_true, decide_eq_true_eq] at h
    rcases h with h | h
    · left
      rw [isLowerAz_toNat]
      rcases h with h | h
      · exact h
      · split at hl <;> omega
    · right
      exact h
  case isFalse _ =>
    right
    decide

theorem clean_char_ne {c : Char} (hc : isLowerAz c = true ∨ c = ' ')
    (d : Char) (hd : isLowerAz d = true ∨ d = ' ' → False) : c ≠ d := by
  intro h
  subst h
  exact hd hc

/-! ## Helper lemmas: splitting and joining -/

theorem joinSp_nil : joinSp [] = [] := rfl

theorem joinSp_single (t : List Char) : joinSp [t] = t := by
  simp [joinSp, List.intersperse]

theorem joinSp_cons₂ (t u : List Char) (us : List (List Char)) :
    joinSp (t :: u :: us) = t ++ ' ' :: joinSp (u :: us) := by
  simp [joinSp, List.intersperse]

theorem joinSp_chars {ts : List (List Char)} {c : Char} (h : c ∈ joinSp ts) :
    c = ' ' ∨ ∃ t ∈ ts, c ∈ t := by
  induction ts with
  | nil => cases h
  | cons t ts ih =>
    cases ts with
    | nil =>
      rw [joinSp_single] at h
      exact Or.inr ⟨t, by simp, h⟩
    | cons u us =>
      rw [joinSp_cons₂] at h
      rcases List.mem_append.mp h with h | h
      · exact Or.inr ⟨t, by simp, h⟩
      · rcases List.mem_cons.mp h with h | h
        · exact Or.inl h
        · rcases ih h with h | ⟨v, hv, hc⟩
          · exact Or.inl h
          · exact Or.inr ⟨v, by simp [hv], hc⟩

theorem pySplitAux_append_run :
    ∀ (t l acc : List Char), (∀ c ∈ t, pyIsSpace c = false) →
      pySplitAux (t ++ l) acc = pySplitAux l (t.reverse ++ acc) := by
  intro t
  induction t with
  | nil => simp
  | cons c t' ih =>
    intro l acc h
    have hc : pyIsSpace c = false := h c (by simp)
    rw [List.cons_append, pySplitAux]
    simp only [hc, Bool.false_eq_true, if_false]
    rw [ih l (c :: acc) fun d hd => h d (by simp [hd])]
    simp [List.append_assoc]

theorem pySplitL_joinSp :
    ∀ ts : List (List Char),
      (∀ t ∈ ts, t ≠ [] ∧ ∀ c ∈ t, pyIsSpace c = false) →
      pySplitL (joinSp ts) = ts := by
  intro ts h
  induction ts with
  | nil => rfl
  | cons t ts' ih =>
    obtain ⟨hne, hns⟩ := h t (by simp)
    cases ts' with
    | nil =>
      rw [joinSp_single, pySplitL]
      have h2 := pySplitAux_append_run t [] [] hns
      rw [List.append_nil] at h2
      rw [h2, pySplitAux, List.append_nil]
      simp [List.isEmpty_iff, List.reverse_eq_nil_iff, hne]
    | cons u us =>
      rw [joinSp_cons₂, pySplitL]
      have h2 := pySplitAux_append_run t (' ' :: joinSp (u :: us)) [] hns
      rw [h2, pySplitAux, List.append_nil]
      have hsp : pyIsSpace ' ' = true := by decide
      simp only [hsp, if_true]
      simp only [List.isEmpty_iff, List.reverse_eq_nil_iff]
      rw [if_neg hne, List.reverse_reverse]
      have h3 : pySplitAux (joinSp (u :: us)) [] = pySplitL (joinSp (u :: us)) := rfl
      rw [h3, ih fun v hv => h v (by simp [hv])]

theorem pySplitAux_tokens_az :
    ∀ l acc : List Char,
      (∀ c ∈ l, isLowerAz c = true ∨ pyIsSpace c = true) →
      (∀ c ∈ acc, isLowerAz c = true) →
      ∀ t ∈ pySplitAux l acc, t ≠ [] ∧ ∀ c ∈ t, isLowerAz c = true := by
  intro l
  induction l with
  | nil =>
    intro acc _ hacc t ht
    rw [pySplitAux] at ht
    cases acc with
    | nil => cases ht
    | cons a as =>
      simp only [List.isEmpty_cons, Bool.false_eq_true, if_false,
        List.mem_singleton] at ht
      subst ht
      exact ⟨by simp, fun c hc => hacc c (List.mem_reverse.mp hc)⟩
  | cons c cs ih =>
    intro acc hl hacc t ht
    have hc := hl c (by simp)
    have hcs : ∀ d ∈ cs, isLowerAz d = true ∨ pyIsSpace d = true :=
      fun d hd => hl d (by simp [hd])
    rw [pySplitAux] at ht
    by_cases hsp : pyIsSpace c = true
    · simp only [hsp, if_true] at ht
      cases acc with
      | nil =>
        simp only [List.isEmpty_nil, if_true] at ht
        exact ih [] hcs (by simp) t ht
      | cons a as =>
        simp only [List.isEmpty_cons, Bool.false_eq_true, if_false,
          List.mem_cons] at ht
        rcases ht with ht | ht
        · subst ht
          exact ⟨by simp, fun d hd => hacc d (List.mem_reverse.mp hd)⟩
        · exact ih [] hcs (by simp) t ht
    · simp only [hsp, if_false] at ht
      have hcaz : isLowerAz c = true := by
        rcases hc with h | h
        · exact h
        · exact absurd h hsp
      refine ih (c :: acc) hcs ?_ t ht
      intro d hd
      rcases List.mem_cons.mp hd with hd | hd
      · subst hd; exact hcaz
      · exact hacc d hd

theorem pySplitL_tokens_az {l : List Char}
    (h : ∀ c ∈ l, isLowerAz c = true ∨ pyIsSpace c = true) :
    ∀ t ∈ pySplitL l, t ≠ [] ∧ ∀ c ∈ t, isLowerAz c = true :=
  pySplitAux_tokens_az l [] h (by simp)

theorem flatMap_singleton {α : Type} (f : α → List α) :
    ∀ l : List α, (∀ a ∈ l, f a = [a]) → l.flatMap f = l := by
  intro l h
  induction l with
  | nil => rfl
  | cons a l ih =>
    rw [List.flatMap_cons, h a (by simp), ih fun b hb => h b (by simp [hb])]
    rfl

/-! ## Helper lemmas: tokenizer and filter -/

theorem treebankSplit_cases (w : String) :
    treebankSplit w = [w] ∨
      ∀ p ∈ treebankSplit w,
        p ∈ (["can", "not", "gim", "me", "gon", "na", "got", "ta", "lem",
          "wan"] : List String) := by
  by_cases h1 : w = "cannot"
  · subst h1; right; decide
  by_cases h2 : w = "gimme"
  · subst h2; right; decide
  by_cases h3 : w = "gonna"
  · subst h3; right; decide
  by_cases h4 : w = "gotta"
  · subst h4; right; decide
  by_cases h5 : w = "lemme"
  · subst h5; right; decide
  by_cases h6 : w = "wanna"
  · subst h6; right; decide
  left
  have e1 : (w == "cannot") = false := beq_eq_false_iff_ne.mpr h1
  have e2 : (w == "gimme") = false := beq_eq_false_iff_ne.mpr h2
  have e3 : (w == "gonna") = false := beq_eq_false_iff_ne.mpr h3
  have e4 : (w == "gotta") = false := beq_eq_false_iff_ne.mpr h4
  have e5 : (w == "lemme") = false := beq_eq_false_iff_ne.mpr h5
  have e6 : (w == "wanna") = false := beq_eq_false_iff_ne.mpr h6
  simp [treebankSplit, treebankSplitParts, List.lookup, e1, e2, e3, e4, e5, e6]

theorem word_tokenize_tokens {s : String}
    (h : ∀ c ∈ s.data, isLowerAz c = true ∨ pyIsSpace c = true) :
    ∀ w ∈ word_tokenize s,
      w.data ≠ [] ∧ (∀ c ∈ w.data, isLowerAz c = true) ∧ treebankSplit w = [w] := by
  intro w hw
  unfold word_tokenize at hw
  rw [List.mem_flatMap] at hw
  obtain ⟨u, hu, hwu⟩ := hw
  unfold pySplitStr at hu
  rw [List.mem_map] at hu
  obtain ⟨t, ht, rfl⟩ := hu
  obtain ⟨htne, htaz⟩ := pySplitL_tokens_az h t ht
  rcases treebankSplit_cases (String.mk t) with hcase | hcase
  · rw [hcase, List.mem_singleton] at hwu
    subst hwu
    exact ⟨htne, htaz, hcase⟩
  · have hp := hcase w hwu
    simp only [List.mem_cons, List.not_mem_nil, or_false] at hp
    rcases hp with rfl | rfl | rfl | rfl | rfl | rfl | rfl | rfl | rfl | rfl <;>
      exact ⟨by decide, by decide, by decide⟩

theorem filtered_tokens {x : String}
    (hx : ∀ c ∈ x.data, isLowerAz c = true ∨ pyIsSpace c = true) :
    ∀ w ∈ (word_tokenize x).filter keepToken,
      w.data ≠ [] ∧ (∀ c ∈ w.data, isLowerAz c = true) ∧
        treebankSplit w = [w] ∧ keepToken w = true := by
  intro w hw
  rw [List.mem_filter] at hw
  obtain ⟨hm, hk⟩ := hw
  obtain ⟨h1, h2, h3⟩ := word_tokenize_tokens hx w hm
  exact ⟨h1, h2, h3, hk⟩

theorem squeeze_of_tokens (ts : List String)
    (h : ∀ w ∈ ts, w.data ≠ [] ∧ ∀ c ∈ w.data, isLowerAz c = true) :
    squeezeSpaces ⟨joinSp (ts.map String.data)⟩ = ⟨joinSp (ts.map String.data)⟩ := by
  have htok : ∀ t ∈ ts.map String.data, t ≠ [] ∧ ∀ c ∈ t, pyIsSpace c = false := by
    intro t ht
    rw [List.mem_map] at ht
    obtain ⟨w, hw, rfl⟩ := ht
    obtain ⟨h1, h2⟩ := h w hw
    exact ⟨h1, fun c hc => isLowerAz_not_space (h2 c hc)⟩
  show (⟨joinSp (pySplitL (joinSp (ts.map String.data)))⟩ : String) = _
  rw [pySplitL_joinSp _ htok]

theorem pipeline_mid_chars (s : String) :
    ∀ c ∈ (remove_symbols (lowercase_text (normalize_repeated_characters
        (remove_emojis (remove_html_tags (expand_contractions_text s)))))).data,
      isLowerAz c = true ∨ pyIsSpace c = true := by
  intro c hc
  have hrw : (remove_symbols (lowercase_text (normalize_repeated_characters
        (remove_emojis (remove_html_tags (expand_contractions_text s)))))).data
      = ((normalize_repeated_characters (remove_emojis (remove_html_tags
          (expand_contractions_text s)))).data.map pyToLower).map symbolMap := rfl
  rw [hrw, List.mem_map] at hc
  obtain ⟨y, hy, rfl⟩ := hc
  rw [List.mem_map] at hy
  obtain ⟨x, _, rfl⟩ := hy
  exact symbolMap_pyToLower x

/-- Structure of every pipeline output: the cleaned text is the single-space
join of a list of tokens, each a nonempty lowercase-ASCII word that the
tokenizer leaves whole and the stopword filter keeps. -/
theorem clean_comment_structure (s : String) :
    ∃ ts : List String,
      (clean_comment s).1 = ⟨joinSp (ts.map String.data)⟩ ∧
      ∀ w ∈ ts, w.data ≠ [] ∧ (∀ c ∈ w.data, isLowerAz c = true) ∧
        treebankSplit w = [w] ∧ keepToken w = true := by
  have hmid := pipeline_mid_chars s
  refine ⟨(word_tokenize (remove_symbols (lowercase_text
      (normalize_repeated_characters (remove_emojis (remove_html_tags
        (expand_contractions_text s))))))).filter keepToken,
    ?_, filtered_tokens hmid⟩
  have h1 : (clean_comment s).1 = squeezeSpaces (remove_stopwords (remove_symbols
      (lowercase_text (normalize_repeated_characters (remove_emojis
        (remove_html_tags (expand_contractions_text s))))))) := rfl
  rw [h1]
  exact squeeze_of_tokens _ fun w hw =>
    ⟨(filtered_tokens hmid w hw).1, (filtered_tokens hmid w hw).2.1⟩

/-! ## Helper lemmas: the stages fix canonical cleaned text -/

theorem unescapeL_no_amp : ∀ l : List Char, (∀ c ∈ l, c ≠ '&') → unescapeL l = l := by
  intro l h
  induction l with
  | nil => rfl
  | cons c cs ih =>
    have hc : c ≠ '&' := h c (by simp)
    rw [unescapeL] at *
    rw [unescapeAux, if_neg hc, ih fun d hd => h d (by simp [hd])]

theorem stripTagsL_no_lt : ∀ l : List Char, (∀ c ∈ l, c ≠ '<') → stripTagsL l = l := by
  intro l h
  induction l with
  | nil => rfl
  | cons c cs ih =>
    have hc : c ≠ '<' := h c (by simp)
    rw [stripTagsL] at *
    rw [stripTagsAux, if_neg hc, ih fun d hd => h d (by simp [hd])]

theorem remove_html_tags_id {x : String} (h : ∀ c ∈ x.data, c ≠ '&' ∧ c ≠ '<') :
    remove_html_tags x = x := by
  show (⟨stripTagsL (unescapeL x.data)⟩ : String) = x
  rw [unescapeL_no_amp x.data fun c hc => (h c hc).1,
    stripTagsL_no_lt x.data fun c hc => (h c hc).2]

theorem emojiMap_id {c : Char} (h : isLowerAz c = true ∨ c = ' ') :
    (if isEmojiChar c then ' ' else c) = c := by
  rcases h with h | h
  · rw [isLowerAz_toNat] at h
    have he : isEmojiChar c = false := by
      simp only [isEmojiChar, Bool.or_eq_false_iff, Bool.and_eq_false_iff,
        decide_eq_false_iff_not, not_le]
      omega
    rw [he]
    rfl
  · subst h
    decide

theorem remove_emojis_id {x : String} (h : ∀ c ∈ x.data, isLowerAz c = true ∨ c = ' ') :
    remove_emojis x = x := by
  show (⟨x.data.map (fun c => if isEmojiChar c then ' ' else c)⟩ : String) = x
  rw [map_id_of _ x.data fun c hc => emojiMap_id (h c hc)]

theorem pyToLower_id {c : Char} (h : isLowerAz c = true ∨ c = ' ') :
    pyToLower c = c := by
  rcases h with h | h
  · rw [isLowerAz_toNat] at h
    unfold pyToLower
    rw [if_neg]
    simp only [Bool.and_eq_true, decide_eq_true_eq, not_and]
    omega
  · subst h
    decide

theorem lowercase_text_id {x : String} (h : ∀ c ∈ x.data, isLowerAz c = true ∨ c = ' ') :
    lowercase_text x = x := by
  show (⟨x.data.map pyToLower⟩ : String) = x
  rw [map_id_of _ x.data fun c hc => pyToLower_id (h c hc)]

theorem symbolMap_id {c : Char} (h : isLowerAz c = true ∨ c = ' ') :
    symbolMap c = c := by
  rcases h with h | h
  · rw [isLowerAz_toNat] at h
    unfold symbolMap
    rw [if_pos]
    simp only [isAsciiLetter, Bool.or_eq_true, Bool.and_eq_true, decide_eq_true_eq]
    left
    left
    omega
  · subst h
    decide

theorem remove_symbols_id {x : String} (h : ∀ c ∈ x.data, isLowerAz c = true ∨ c = ' ') :
    remove_symbols x = x := by
  show (⟨x.data.map symbolMap⟩ : String) = x
  rw [map_id_of _ x.data fun c hc => symbolMap_id (h c hc)]

theorem joinSp_tokens_chars (ts : List String)
    (h : ∀ w ∈ ts, ∀ c ∈ w.data, isLowerAz c = true) :
    ∀ c ∈ joinSp (ts.map String.data), isLowerAz c = true ∨ c = ' ' := by
  intro c hc
  rcases joinSp_chars hc with h1 | ⟨t, ht, hct⟩
  · exact Or.inr h1
  · rw [List.mem_map] at ht
    obtain ⟨w, hw, rfl⟩ := ht
    exact Or.inl (h w hw c hct)

theorem remove_stopwords_canonical (ts : List String)
    (h : ∀ w ∈ ts, w.data ≠ [] ∧ (∀ c ∈ w.data, isLowerAz c = true) ∧
      treebankSplit w = [w] ∧ keepToken w = true) :
    remove_stopwords ⟨joinSp (ts.map String.data)⟩ = ⟨joinSp (ts.map String.data)⟩ := by
  have htok : ∀ t ∈ ts.map String.data, t ≠ [] ∧ ∀ c ∈ t, pyIsSpace c = false := by
    intro t ht
    rw [List.mem_map] at ht
    obtain ⟨w, hw, rfl⟩ := ht
    exact ⟨(h w hw).1, fun c hc => isLowerAz_not_space ((h w hw).2.1 c hc)⟩
  have h1 : word_tokenize ⟨joinSp (ts.map String.data)⟩ = ts := by
    show ((pySplitL (joinSp (ts.map String.data))).map String.mk).flatMap treebankSplit = ts
    rw [pySplitL_joinSp _ htok, List.map_map,
      map_id_of (String.mk ∘ String.data) ts fun w _ => rfl]
    exact flatMap_singleton _ ts fun w hw => (h w hw).2.2.1
  show (⟨joinSp (((word_tokenize ⟨joinSp (ts.map String.data)⟩).filter
      keepToken).map String.data)⟩ : String) = _
  rw [h1, List.filter_eq_self.mpr fun w hw => (h w hw).2.2.2]

/-! ## Helper lemmas: the negation lexicon on the cleaned alphabet -/

theorem neg_mem_iff {w : String} (h : ∀ c ∈ w.data, isLowerAz c = true) :
    w ∈ negation_words ↔ w ∈ single_negation_words := by
  constructor
  · intro hm
    simp only [negation_words, List.mem_cons, List.not_mem_nil, or_false] at hm
    rcases hm with rfl | rfl | rfl | rfl | rfl | rfl | rfl | rfl | rfl | rfl |
      rfl | rfl | rfl | rfl | rfl | rfl | rfl | rfl | rfl
    · decide
    · decide
    · decide
    · decide
    · decide
    · exact absurd (h ' ' (by decide)) (by decide)
    · decide
    · exact absurd (h ' ' (by decide)) (by decide)
    · decide
    · exact absurd (h ' ' (by decide)) (by decide)
    · decide
    · decide
    · exact absurd (h '\'' (by decide)) (by decide)
    · exact absurd (h ' ' (by decide)) (by decide)
    · exact absurd (h '\'' (by decide)) (by decide)
    · exact absurd (h ' ' (by decide)) (by decide)
    · exact absurd (h '\'' (by decide)) (by decide)
    · exact absurd (h ' ' (by decide)) (by decide)
    · exact absurd (h '\'' (by decide)) (by decide)
  · intro hm
    simp only [single_negation_words, List.mem_cons, List.not_mem_nil, or_false] at hm
    rcases hm with rfl | rfl | rfl | rfl | rfl | rfl | rfl | rfl | rfl <;> decide

theorem contains_iff_mem (l : List String) (a : String) :
    l.contains a = true ↔ a ∈ l := by
  exact List.elem_iff

theorem keepToken_eq_single {w : String} (h : ∀ c ∈ w.data, isLowerAz c = true) :
    keepToken w = (single_negation_words.contains w ||
      !((nltk_english_stopwords.filter
        (fun v => !(single_negation_words.contains v))).contains w)) := by
  have hneg : negation_words.contains w = single_negation_words.contains w := by
    by_cases hw : w ∈ negation_words
    · rw [(contains_iff_mem _ _).mpr hw,
        (contains_iff_mem _ _).mpr ((neg_mem_iff h).mp hw)]
    · rw [Bool.eq_false_iff.mpr fun hx => hw ((contains_iff_mem _ _).mp hx),
        Bool.eq_false_iff.mpr fun hx =>
          hw ((neg_mem_iff h).mpr ((contains_iff_mem _ _).mp hx))]
  have hiff : w ∈ nltk_english_stopwords.filter (fun v => !(negation_words.contains v)) ↔
      w ∈ nltk_english_stopwords.filter (fun v => !(single_negation_words.contains v)) := by
    rw [List.mem_filter, List.mem_filter, hneg]
  have hstop : (nltk_english_stopwords.filter
        (fun v => !(negation_words.contains v))).contains w
      = (nltk_english_stopwords.filter
        (fun v => !(single_negation_words.contains v))).contains w := by
    by_cases hw : w ∈ nltk_english_stopwords.filter (fun v => !(negation_words.contains v))
    · rw [(contains_iff_mem _ _).mpr hw, (contains_iff_mem _ _).mpr (hiff.mp hw)]
    · rw [Bool.eq_false_iff.mpr fun hx => hw ((contains_iff_mem _ _).mp hx),
        Bool.eq_false_iff.mpr fun hx =>
          hw (hiff.mpr ((contains_iff_mem _ _).mp hx))]
  show (negation_words.contains w ||
      !((nltk_english_stopwords.filter
        (fun v => !(negation_words.contains v))).contains w)) = _
  rw [hneg, hstop]

/-! ## Helper lemmas: run-length structure of the collapser -/

theorem runsOf_head :
    ∀ (c : Char) (cs : List Char), ∃ n rs, runsOf (c :: cs) = (c, n) :: rs ∧ 1 ≤ n := by
  intro c cs
  induction cs generalizing c with
  | nil => exact ⟨1, [], rfl, le_refl 1⟩
  | cons d ds ih =>
    obtain ⟨n, rs, heq, hn⟩ := ih d
    have e : runsOf (c :: d :: ds) = match runsOf (d :: ds) with
      | (e, n) :: rs => if c = d then (c, n + 1) :: rs else (c, 1) :: (e, n) :: rs
      | [] => [(c, 1)] := rfl
    by_cases hcd : c = d
    · refine ⟨n + 1, rs, ?_, by omega⟩
      rw [e, heq]
      simp [hcd]
    · refine ⟨1, (d, n) :: rs, ?_, le_refl 1⟩
      rw [e, heq]
      simp [hcd]

theorem collapse_eq_spec_aux :
    ∀ (fuel : Nat) (l : List Char), l.length ≤ fuel →
      collapseRunsL l = collapseRunsSpec l := by
  intro fuel
  induction fuel with
  | zero =>
    intro l hl
    rw [Nat.le_zero, List.length_eq_zero] at hl
    subst hl
    rfl
  | succ n ih =>
    intro l hl
    match l with
    | [] => rfl
    | [a] =>
      show [a] = collapseRunsSpec [a]
      simp [collapseRunsSpec, runsOf]
    | [a, b] =>
      show [a, b] = collapseRunsSpec [a, b]
      have e : runsOf [a, b] = match runsOf [b] with
        | (e, n) :: rs => if a = b then (a, n + 1) :: rs else (a, 1) :: (e, n) :: rs
        | [] => [(a, 1)] := rfl
      by_cases hab : a = b
      · subst hab
        simp [collapseRunsSpec, e, runsOf, List.replicate]
      · simp [collapseRunsSpec, e, runsOf, hab, List.replicate]
    | a :: b :: c :: rest =>
      have hlen : (b :: c :: rest).length ≤ n := by
        simp only [List.length_cons] at hl ⊢
        omega
      have IH := ih (b :: c :: rest) hlen
      obtain ⟨n1, rs1, heq1, hn1⟩ := runsOf_head b (c :: rest)
      have e0 : runsOf (a :: b :: c :: rest) = match runsOf (b :: c :: rest) with
        | (e, n) :: rs => if a = b then (a, n + 1) :: rs else (a, 1) :: (e, n) :: rs
        | [] => [(a, 1)] := rfl
      have ecol : collapseRunsL (a :: b :: c :: rest) =
          if a = b ∧ b = c ∧ a ≠ '\n' then collapseRunsL (b :: c :: rest)
          else a :: collapseRunsL (b :: c :: rest) := rfl
      by_cases hab : a = b
      · have e1 : runsOf (a :: b :: c :: rest) = (a, n1 + 1) :: rs1 := by
          rw [e0, heq1]
          simp [hab]
        by_cases hbc : b = c
        · have hn2 : 2 ≤ n1 := by
            obtain ⟨n2, rs2, heq2, _⟩ := runsOf_head c rest
            have e2 : runsOf (b :: c :: rest)
                = if b = c then (b, n2 + 1) :: rs2 else (b, 1) :: (c, n2) :: rs2 := by
              have e2' : runsOf (b :: c :: rest) = match runsOf (c :: rest) with
                | (e, n) :: rs =>
                  if b = c then (b, n + 1) :: rs else (b, 1) :: (e, n) :: rs
                | [] => [(b, 1)] := rfl
              rw [heq2] at e2'
              exact e2'
            rw [e2, if_pos hbc] at heq1
            simp only [List.cons.injEq, Prod.mk.injEq] at heq1
            omega
          by_cases han : a = '\n'
          · have hcond : ¬(a = b ∧ b = c ∧ a ≠ '\n') := fun hcon => hcon.2.2 han
            have hbn : b = '\n' := hab ▸ han
            rw [ecol, if_neg hcond, IH]
            unfold collapseRunsSpec
            rw [e1, heq1]
            simp only [List.map_cons, List.flatten_cons]
            rw [if_neg (show ¬(b ≠ '\n' ∧ 3 ≤ n1) from fun hcon => hcon.1 hbn),
              if_neg (show ¬(a ≠ '\n' ∧ 3 ≤ n1 + 1) from fun hcon => hcon.1 han)]
            simp [List.replicate_succ, hab]
          · have hcond : a = b ∧ b = c ∧ a ≠ '\n' := ⟨hab, hbc, han⟩
            have hbn : b ≠ '\n' := hab ▸ han
            rw [ecol, if_pos hcond, IH]
            unfold collapseRunsSpec
            rw [e1, heq1]
            simp only [List.map_cons, List.flatten_cons]
            rw [if_pos (show a ≠ '\n' ∧ 3 ≤ n1 + 1 from ⟨han, by omega⟩)]
            by_cases h3 : 3 ≤ n1
            · rw [if_pos (show b ≠ '\n' ∧ 3 ≤ n1 from ⟨hbn, h3⟩), hab]
            · have hn1e : n1 = 2 := by omega
              rw [if_neg (show ¬(b ≠ '\n' ∧ 3 ≤ n1) from
                fun hcon => absurd hcon.2 (by omega)), hn1e, hab]
        · have hn1e : n1 = 1 := by
            obtain ⟨n2, rs2, heq2, _⟩ := runsOf_head c rest
            have e2 : runsOf (b :: c :: rest)
                = if b = c then (b, n2 + 1) :: rs2 else (b, 1) :: (c, n2) :: rs2 := by
              have e2' : runsOf (b :: c :: rest) = match runsOf (c :: rest) with
                | (e, n) :: rs =>
                  if b = c then (b, n + 1) :: rs else (b, 1) :: (e, n) :: rs
                | [] => [(b, 1)] := rfl
              rw [heq2] at e2'
              exact e2'
            rw [e2, if_neg hbc] at heq1
            simp only [List.cons.injEq, Prod.mk.injEq] at heq1
            omega
          have hcond : ¬(a = b ∧ b = c ∧ a ≠ '\n') := fun hcon => hbc hcon.2.1
          rw [ecol, if_neg hcond, IH]
          unfold collapseRunsSpec
          rw [e1, heq1]
          simp only [List.map_cons, List.flatten_cons]
          rw [if_neg (show ¬(b ≠ '\n' ∧ 3 ≤ n1) from
              fun hcon => absurd hcon.2 (by omega)),
            if_neg (show ¬(a ≠ '\n' ∧ 3 ≤ n1 + 1) from
              fun hcon => absurd hcon.2 (by omega))]
          simp [hn1e, hab, List.replicate]
      · have e1 : runsOf (a :: b :: c :: rest) = (a, 1) :: (b, n1) :: rs1 := by
          rw [e0, heq1]
          simp [hab]
        have hcond : ¬(a = b ∧ b = c ∧ a ≠ '\n') := fun hcon => hab hcon.1
        rw [ecol, if_neg hcond, IH]
        unfold collapseRunsSpec
        rw [e1, heq1]
        simp only [List.map_cons, List.flatten_cons]
        rw [if_neg (show ¬(a ≠ '\n' ∧ 3 ≤ 1) from
          fun hcon => absurd hcon.2 (by omega))]
        simp [List.replicate]

theorem collapse_eq_spec (l : List Char) : collapseRunsL l = collapseRunsSpec l :=
  collapse_eq_spec_aux l.length l (le_refl _)

/-! ## Claim theorems -/

/-- C1, counterexample: the negation entry `cannot` does occur as a
whitespace token of the lowercase symbol-free text `"cannot believe it"`,
yet it is absent from the tokens of `remove_stopwords`'s output, because
the NLTK tokenizer splits `cannot` into `can` + `not` and `can` is a
stopword: the output is `"not believe"`. -/
theorem negation_preservation_cex :
    "cannot" ∈ negation_words ∧ (' ' ∉ ("cannot" : String).data) ∧
    "cannot" ∈ pySplitStr "cannot believe it" ∧
    (∀ c ∈ ("cannot believe it" : String).data,
      isLowerAz c = true ∨ pyIsSpace c = true) ∧
    remove_stopwords "cannot believe it" = "not believe" ∧
    "cannot" ∉ pySplitStr (remove_stopwords "cannot believe it") := by decide

/-- C1 (amended): for every single-word entry of the negation lexicon and
every lowercase symbol-free input, if the entry occurs among the tokens the
filter's tokenizer (NLTK `word_tokenize`) produces from that text, then it
occurs among the tokens of `remove_stopwords`'s output - the filter itself
never drops a negation-lexicon token. (The entry `cannot` is never such a
token: the tokenizer splits it before the filter runs.) -/
theorem negation_token_preserved (t s : String)
    (hneg : t ∈ negation_words) (_hsingle : ' ' ∉ t.data)
    (halpha : ∀ c ∈ s.data, isLowerAz c = true ∨ pyIsSpace c = true)
    (htok : t ∈ word_tokenize s) :
    t ∈ pySplitStr (remove_stopwords s) := by
  have hkeep : keepToken t = true := by
    unfold keepToken
    rw [Bool.or_eq_true]
    exact Or.inl ((contains_iff_mem _ _).mpr hneg)
  have hmem : t ∈ (word_tokenize s).filter keepToken :=
    List.mem_filter.mpr ⟨htok, hkeep⟩
  have htoks : ∀ u ∈ ((word_tokenize s).filter keepToken).map String.data,
      u ≠ [] ∧ ∀ c ∈ u, pyIsSpace c = false := by
    intro u hu
    rw [List.mem_map] at hu
    obtain ⟨w, hw, rfl⟩ := hu
    have hf := filtered_tokens halpha w hw
    exact ⟨hf.1, fun c hc => isLowerAz_not_space (hf.2.1 c hc)⟩
  show t ∈ (pySplitL (remove_stopwords s).data).map String.mk
  have hdata : (remove_stopwords s).data
      = joinSp (((word_tokenize s).filter keepToken).map String.data) := rfl
  rw [hdata, pySplitL_joinSp _ htoks, List.map_map,
    map_id_of (String.mk ∘ String.data) _ fun w _ => rfl]
  exact hmem

/-- Witness for the amended C1 at the token `not` and input `"not bad"`. -/
theorem negation_token_preserved_witness :
    "not" ∈ pySplitStr (remove_stopwords "not bad") :=
  negation_token_preserved "not" "not bad" (by decide) (by decide)
    (by decide) (by decide)

/-- C2: `clean_comment` applies contraction expansion, markup stripping,
emoji stripping, repeated-character collapsing, lowercasing, symbol
stripping, stopword filtering and whitespace squeezing in exactly this
order; `wordsBefore` is the whitespace-token count of the raw input taken
before any stage runs, and `wordsAfter` is the whitespace-token count of
the final cleaned text. -/
theorem clean_comment_stage_order (s : String) :
    clean_comment s =
      (squeezeSpaces (remove_stopwords (remove_symbols (lowercase_text
        (normalize_repeated_characters (remove_emojis (remove_html_tags
          (expand_contractions_text s))))))),
       count_words s,
       count_words (squeezeSpaces (remove_stopwords (remove_symbols (lowercase_text
        (normalize_repeated_characters (remove_emojis (remove_html_tags
          (expand_contractions_text s))))))))) := rfl

/-- C3: for every input, the cleaned text consists only of lowercase ASCII
letters and spaces, and it is the single-space join of a list of nonempty
lowercase-ASCII tokens - hence no double spaces and no leading or trailing
space (the empty join covers the empty output). -/
theorem clean_comment_alphabet_closure (s : String) :
    (∀ c ∈ (clean_comment s).1.data, isLowerAz c = true ∨ c = ' ') ∧
    ∃ ts : List String,
      (∀ w ∈ ts, w ≠ "" ∧ ∀ c ∈ w.data, isLowerAz c = true) ∧
      (clean_comment s).1.data = joinSp (ts.map String.data) := by
  obtain ⟨ts, hst, hts⟩ := clean_comment_structure s
  have hchars : ∀ c ∈ (clean_comment s).1.data, isLowerAz c = true ∨ c = ' ' := by
    rw [hst]
    exact joinSp_tokens_chars ts fun w hw => (hts w hw).2.1
  refine ⟨hchars, ts, ?_, by rw [hst]⟩
  intro w hw
  refine ⟨?_, (hts w hw).2.1⟩
  intro hempty
  exact (hts w hw).1 (congrArg String.data hempty)

/-- C4, counterexample: the pipeline is not idempotent. For the input
`"AAa"` the first pass outputs `"aaa"` (collapsing is case-sensitive and
runs before lowercasing), and the second pass collapses this fresh run to
`"aa"`. -/
theorem clean_comment_not_idempotent_cex :
    (clean_comment (clean_comment "AAa").1).1 ≠ (clean_comment "AAa").1 := by decide

/-- C4 (amended): a second pass over the first pass's cleaned text is a
no-op whenever that text is a fixed point of contraction expansion and of
repeated-character collapsing; in general these two stages can still fire
on a first-pass output (case noise can hide a character run from the
collapser, and expansion can rewrite tokens such as `cause`), so the
unconditional fixed-point equation fails. -/
theorem clean_comment_second_pass_noop (s : String)
    (h1 : expand_contractions_text (clean_comment s).1 = (clean_comment s).1)
    (h2 : normalize_repeated_characters (clean_comment s).1 = (clean_comment s).1) :
    (clean_comment (clean_comment s).1).1 = (clean_comment s).1 := by
  obtain ⟨ts, hst, hts⟩ := clean_comment_structure s
  have hch : ∀ c ∈ (clean_comment s).1.data, isLowerAz c = true ∨ c = ' ' := by
    rw [hst]
    exact joinSp_tokens_chars ts fun w hw => (hts w hw).2.1
  have hhtml : remove_html_tags (clean_comment s).1 = (clean_comment s).1 :=
    remove_html_tags_id fun c hcm =>
      ⟨clean_char_ne (hch c hcm) '&' (by decide),
       clean_char_ne (hch c hcm) '<' (by decide)⟩
  have hemoji := remove_emojis_id hch
  have hlower := lowercase_text_id hch
  have hsym := remove_symbols_id hch
  have hstop : remove_stopwords (clean_comment s).1 = (clean_comment s).1 := by
    rw [hst]
    exact remove_stopwords_canonical ts hts
  have hsq : squeezeSpaces (clean_comment s).1 = (clean_comment s).1 := by
    rw [hst]
    exact squeeze_of_tokens ts fun w hw => ⟨(hts w hw).1, (hts w hw).2.1⟩
  show squeezeSpaces (remove_stopwords (remove_symbols (lowercase_text
      (normalize_repeated_characters (remove_emojis (remove_html_tags
        (expand_contractions_text (clean_comment s).1))))))) = (clean_comment s).1
  rw [h1, hhtml, hemoji, h2, hlower, hsym, hstop, hsq]

/-- Witness for the amended C4 at the input `"good stuff"`, whose cleaned
text `"good stuff"` is fixed by expansion and collapsing. -/
theorem clean_comment_second_pass_noop_witness :
    (clean_comment (clean_comment "good stuff").1).1 = (clean_comment "good stuff").1 :=
  clean_comment_second_pass_noop "good stuff" (by decide) (by decide)

/-- C5, counterexample: for the scenario input, `wordsBefore` is not 5 -
the raw text splits into the six whitespace tokens `I`, `love`, `this!`,
the emoji, `<br>`, `Amazing`. -/
theorem scenario_one_cex :
    (clean_comment "I love this! 😍 <br> Amazing").2.1 ≠ 5 := by decide

/-- C5 (amended): the scenario input cleans to `"love amazing"` (tokens
`love` and `amazing`; `i` and `this` dropped as stopwords; no emoji,
markup or punctuation remain), with `wordsBefore = 6` and
`wordsAfter = 2`. -/
theorem scenario_one_eval :
    clean_comment "I love this! 😍 <br> Amazing" = ("love amazing", 6, 2) := by decide

/-- C6: cleaning the empty string returns `("", 0, 0)`, and the success
classifier on its cleaned text yields `"Failed"`. -/
theorem empty_string_behavior :
    clean_comment "" = ("", 0, 0) ∧
    flag_cleaning_success "" (clean_comment "").1 = "Failed" := by decide

/-- C7: the success classifier returns `"Success"` exactly when the
stripped cleaned text is nonempty, `"Failed"` exactly when it is empty,
and its result does not depend on the `original_text` argument. -/
theorem flag_cleaning_success_spec (original other cleaned : String) :
    (flag_cleaning_success original cleaned = "Success" ↔ pyStrip cleaned ≠ "") ∧
    (flag_cleaning_success original cleaned = "Failed" ↔ pyStrip cleaned = "") ∧
    flag_cleaning_success original cleaned = flag_cleaning_success other cleaned := by
  unfold flag_cleaning_success
  by_cases h : pyStrip cleaned = ""
  · rw [h]
    simp
  · simp [h]

/-- C8, counterexample: a run of three newlines is left unchanged (the
regex dot does not match newline), contradicting the claim that every run
of three or more identical characters collapses to two. -/
theorem normalize_newline_cex :
    normalize_repeated_characters "\n\n\n" = "\n\n\n" ∧
    normalize_repeated_characters "\n\n\n" ≠ "\n\n" := by decide

/-- C8 (amended): run-length characterization of the collapser - every
maximal run of three or more identical characters other than newline is
replaced by exactly two occurrences (case-sensitively), and every other
run, including every newline run, is left unchanged. -/
theorem normalize_repeated_characters_runs (s : String) :
    normalize_repeated_characters s = ⟨collapseRunsSpec s.data⟩ := by
  show (⟨collapseRunsL s.data⟩ : String) = ⟨collapseRunsSpec s.data⟩
  rw [collapse_eq_spec]

/-- C9: the stopword set and the negation set are disjoint - the negation
whitelist is subtracted from the stopword corpus at initialization, and
neither list is ever mutated in the functional model. -/
theorem lexicon_disjoint : stop_words ∩ negation_words = ([] : List String) := by
  decide

/-- C10: on the lowercase symbol-free alphabet the pipeline feeds the
filter, `remove_stopwords` behaves identically when the negation whitelist
is reduced to its single-word entries
`not, no, never, none, did, was, were, cannot, cant`: tokenization never
yields a token containing a space or an apostrophe, so the multi-word and
apostrophe entries are inert. -/
theorem multiword_negations_inert (s : String)
    (halpha : ∀ c ∈ s.data, isLowerAz c = true ∨ pyIsSpace c = true) :
    remove_stopwords s = remove_stopwords_with single_negation_words s := by
  have hfil : (word_tokenize s).filter keepToken
      = (word_tokenize s).filter (fun w => single_negation_words.contains w ||
          !((nltk_english_stopwords.filter
            (fun v => !(single_negation_words.contains v))).contains w)) :=
    List.filter_congr fun w hw =>
      keepToken_eq_single ((word_tokenize_tokens halpha w hw).2.1)
  show (⟨joinSp (((word_tokenize s).filter keepToken).map String.data)⟩ : String) = _
  rw [hfil]
  rfl

/-- Witness for C10 at the input `"was not here"`. -/
theorem multiword_negations_inert_witness :
    remove_stopwords "was not here"
      = remove_stopwords_with single_negation_words "was not here" :=
  multiword_negations_inert "was not here" (by decide)

end CleaningPipeline
